import Mathlib

/-!
Verification development for the ark-algorithms repository.

The source is embedded shallowly:
* arkworks `DensePolynomial<F>` becomes a list of coefficients (lowest degree
  first); arkworks keeps coefficient vectors free of trailing zeros, which the
  `trim` function models, and the arithmetic operations trim their results the
  way the arkworks operators do.
* group elements of `G1`, `G2` and `GT` are represented by their discrete
  logarithms with respect to fixed generators, so scalar multiplication is
  field multiplication, group addition is field addition, and the bilinear
  pairing is field multiplication of the two exponents (faithful for the
  prime-order pairing groups the repository instantiates).
* Rust panics (out-of-bounds indexing) are modelled by `Option`: a function
  that can panic returns `none` exactly on the inputs where the Rust code
  aborts.
-/

set_option linter.unusedSectionVars false
set_option linter.unusedVariables false
set_option linter.unnecessarySimpa false
set_option linter.unusedTactic false

namespace ArkAlgorithms

section PolyDefs

variable {F : Type} [Field F] [DecidableEq F]

/-- Remove trailing zero coefficients, as arkworks `truncate_leading_zeros`
does when a `DensePolynomial` is constructed or produced by arithmetic. -/
def trim : List F → List F
  | [] => []
  | a :: t =>
    match trim t with
    | [] => if a = 0 then [] else [a]
    | l => a :: l

/-- Leading coefficient of a coefficient list (0 for the empty list). -/
def lastD (l : List F) : F := l.getD (l.length - 1) 0

/-- Coefficientwise polynomial addition (untrimmed). -/
def polyAdd : List F → List F → List F
  | [], q => q
  | p, [] => p
  | a :: p, b :: q => (a + b) :: polyAdd p q

/-- Coefficientwise polynomial subtraction (untrimmed). -/
def polySub : List F → List F → List F
  | [], q => q.map (fun b => -b)
  | p, [] => p
  | a :: p, b :: q => (a - b) :: polySub p q

/-- Polynomial multiplication on coefficient lists. -/
def polyMul : List F → List F → List F
  | [], _ => []
  | a :: p, q => polyAdd (q.map (fun b => a * b)) (0 :: polyMul p q)

/-- Multiplication of a polynomial by a scalar, coefficient by coefficient,
as arkworks `&DensePolynomial * F` does. -/
def polyScale (p : List F) (c : F) : List F := p.map (fun a => a * c)

/-- Horner evaluation of a coefficient list, as arkworks `evaluate`. -/
def polyEval (p : List F) (x : F) : F := p.foldr (fun a acc => a + x * acc) 0

/-- Trimming addition: the arkworks `Add` for `DensePolynomial`, whose result
has no trailing zeros. -/
def polyAddT (p q : List F) : List F := trim (polyAdd p q)

/-- Trimming subtraction, the arkworks `Sub` for `DensePolynomial`. -/
def polySubT (p q : List F) : List F := trim (polySub p q)

/-- Trimming multiplication, the arkworks `Mul` for `DensePolynomial`. -/
def polyMulT (p q : List F) : List F := trim (polyMul p q)

/-- Trimming scalar multiplication, the arkworks `Mul<F>`. -/
def polyScaleT (p : List F) (c : F) : List F := trim (polyScale p c)

/-- One subtraction step of arkworks `divide_with_q_and_r`: subtract
`(leading p / leading d) · X^(deg p - deg d) · d` from `p`. -/
def divStep (p d : List F) : List F :=
  polySub (trim p)
    (List.replicate ((trim p).length - d.length) 0 ++
      polyScale d (lastD (trim p) / lastD d))

/-- Fuelled polynomial long division, the loop of arkworks
`divide_with_q_and_r`.  Returns the pair (quotient, remainder). -/
def divModAux : Nat → List F → List F → List F × List F
  | 0, p, _ => ([], trim p)
  | fuel + 1, p, d =>
    if (trim p).length < d.length then ([], trim p)
    else
      (polyAdd (divModAux fuel (divStep p d) d).1
          (List.replicate ((trim p).length - d.length) 0 ++
            [lastD (trim p) / lastD d]),
        (divModAux fuel (divStep p d) d).2)

/-- Polynomial division with remainder, as arkworks
`DenseOrSparsePolynomial::divide_with_q_and_r` (the `/` operator keeps only
the quotient and discards the remainder). -/
def polyDivMod (p d : List F) : List F × List F :=
  divModAux (p.length + 1) p d

/-- Interpretation of a coefficient list as a Mathlib polynomial; used only
inside proofs, never in the executable embedding. -/
noncomputable def toPoly (p : List F) : Polynomial F :=
  p.foldr (fun a acc => Polynomial.C a + Polynomial.X * acc) 0

end PolyDefs

section PolyLemmas

variable {F : Type} [Field F] [DecidableEq F]

theorem toPoly_nil : toPoly ([] : List F) = 0 := rfl

theorem toPoly_cons (a : F) (t : List F) :
    toPoly (a :: t) = Polynomial.C a + Polynomial.X * toPoly t := rfl

theorem toPoly_polyAdd (p q : List F) :
    toPoly (polyAdd p q) = toPoly p + toPoly q := by
  induction p generalizing q with
  | nil => simp [polyAdd, toPoly_nil]
  | cons a p ih =>
    cases q with
    | nil => simp [polyAdd, toPoly_nil]
    | cons b q =>
      show toPoly ((a + b) :: polyAdd p q) = _
      rw [toPoly_cons, toPoly_cons, toPoly_cons, ih, Polynomial.C_add]
      ring

theorem toPoly_polySub (p q : List F) :
    toPoly (polySub p q) = toPoly p - toPoly q := by
  induction p generalizing q with
  | nil =>
    have h : polySub ([] : List F) q = q.map (fun b => -b) := by
      cases q <;> rfl
    rw [h, toPoly_nil, zero_sub]
    clear h
    induction q with
    | nil => simp [toPoly_nil]
    | cons b q ihq =>
      rw [List.map_cons, toPoly_cons, toPoly_cons, ihq, Polynomial.C_neg]
      ring
  | cons a p ih =>
    cases q with
    | nil => simp [polySub, toPoly_nil]
    | cons b q =>
      show toPoly ((a - b) :: polySub p q) = _
      rw [toPoly_cons, toPoly_cons, toPoly_cons, ih, Polynomial.C_sub]
      ring

theorem toPoly_map_mul (c : F) (p : List F) :
    toPoly (p.map (fun a => c * a)) = Polynomial.C c * toPoly p := by
  induction p with
  | nil => simp [toPoly_nil]
  | cons a t ih =>
    rw [List.map_cons, toPoly_cons, toPoly_cons, ih, Polynomial.C_mul]
    ring

theorem toPoly_polyScale (p : List F) (c : F) :
    toPoly (polyScale p c) = Polynomial.C c * toPoly p := by
  have h : polyScale p c = p.map (fun a => c * a) := by
    simp [polyScale, mul_comm]
  rw [h, toPoly_map_mul]

theorem toPoly_polyMul (p q : List F) :
    toPoly (polyMul p q) = toPoly p * toPoly q := by
  induction p with
  | nil => simp [polyMul, toPoly_nil]
  | cons a p ih =>
    show toPoly (polyAdd (q.map (fun b => a * b)) (0 :: polyMul p q)) = _
    rw [toPoly_polyAdd, toPoly_map_mul, toPoly_cons, ih, toPoly_cons,
      Polynomial.C_0]
    ring

theorem toPoly_trim (p : List F) : toPoly (trim p) = toPoly p := by
  induction p with
  | nil => rfl
  | cons a t ih =>
    show toPoly (match trim t with
      | [] => if a = 0 then [] else [a]
      | l => a :: l) = _
    cases h : trim t with
    | nil =>
      rw [h] at ih
      have ht : toPoly t = 0 := by rw [← ih]; rfl
      by_cases ha : a = 0
      · simp [ha, toPoly_nil, toPoly_cons, ht]
      · simp [ha, toPoly_nil, toPoly_cons, ht]
    | cons b l =>
      rw [h] at ih
      calc toPoly (a :: b :: l)
          = Polynomial.C a + Polynomial.X * toPoly (b :: l) := toPoly_cons _ _
        _ = Polynomial.C a + Polynomial.X * toPoly t := by rw [ih]
        _ = toPoly (a :: t) := (toPoly_cons _ _).symm

theorem toPoly_replicate_append (k : Nat) (l : List F) :
    toPoly (List.replicate k 0 ++ l) = Polynomial.X ^ k * toPoly l := by
  induction k with
  | zero => simp
  | succ k ih =>
    rw [List.replicate_succ, List.cons_append, toPoly_cons, ih,
      Polynomial.C_0, pow_succ]
    ring

theorem toPoly_eval (p : List F) (x : F) :
    (toPoly p).eval x = polyEval p x := by
  induction p with
  | nil => simp [toPoly_nil, polyEval]
  | cons a t ih =>
    rw [toPoly_cons]
    simp only [Polynomial.eval_add, Polynomial.eval_mul, Polynomial.eval_C,
      Polynomial.eval_X, ih]
    rfl

theorem polyEval_trim (p : List F) (x : F) :
    polyEval (trim p) x = polyEval p x := by
  rw [← toPoly_eval, toPoly_trim, toPoly_eval]

theorem polyEval_polySub (p q : List F) (x : F) :
    polyEval (polySub p q) x = polyEval p x - polyEval q x := by
  rw [← toPoly_eval, toPoly_polySub, Polynomial.eval_sub, toPoly_eval,
    toPoly_eval]

theorem polyEval_cons (a : F) (t : List F) (x : F) :
    polyEval (a :: t) x = a + x * polyEval t x := rfl

theorem polyEval_nil (x : F) : polyEval ([] : List F) x = 0 := rfl

theorem polyEval_singleton (a x : F) : polyEval [a] x = a := by
  simp [polyEval]

theorem trim_cons (a : F) (t : List F) :
    trim (a :: t) =
      if trim t = [] then (if a = 0 then [] else [a]) else a :: trim t := by
  show (match trim t with
    | [] => if a = 0 then [] else [a]
    | l => a :: l) = _
  cases h : trim t with
  | nil => simp
  | cons b l => simp

theorem trim_trim (p : List F) : trim (trim p) = trim p := by
  induction p with
  | nil => rfl
  | cons a t ih =>
    rw [trim_cons]
    by_cases h : trim t = []
    · by_cases ha : a = 0
      · simp [ha, h, trim]
      · simp [ha, h, trim_cons, trim]
    · rw [if_neg h, trim_cons, ih, if_neg h]

theorem trim_length_le (p : List F) : (trim p).length ≤ p.length := by
  induction p with
  | nil => simp [trim]
  | cons a t ih =>
    rw [trim_cons]
    by_cases h : trim t = []
    · by_cases ha : a = 0 <;> simp [h, ha]
    · rw [if_neg h]
      simp only [List.length_cons]
      omega

theorem lastD_nil : lastD ([] : List F) = 0 := rfl

theorem lastD_singleton (a : F) : lastD [a] = a := rfl

theorem lastD_cons (a : F) {t : List F} (h : t ≠ []) :
    lastD (a :: t) = lastD t := by
  cases t with
  | nil => exact absurd rfl h
  | cons b l =>
    show (a :: b :: l).getD (l.length + 1) 0 = (b :: l).getD l.length 0
    rw [List.getD_cons_succ]

theorem lastD_trim_ne_zero {p : List F} (h : trim p ≠ []) :
    lastD (trim p) ≠ 0 := by
  induction p with
  | nil => exact absurd rfl h
  | cons a t ih =>
    rw [trim_cons] at h ⊢
    by_cases ht : trim t = []
    · rw [if_pos ht] at h ⊢
      by_cases ha : a = 0
      · rw [if_pos ha] at h
        exact absurd rfl h
      · rw [if_neg ha, lastD_singleton]
        exact ha
    · rw [if_neg ht] at h ⊢
      rw [lastD_cons a ht]
      exact ih ht

theorem trim_length_lt {l : List F} (hne : l ≠ []) (h0 : lastD l = 0) :
    (trim l).length < l.length := by
  induction l with
  | nil => exact absurd rfl hne
  | cons a t ih =>
    rw [trim_cons]
    cases t with
    | nil =>
      rw [lastD_singleton] at h0
      simp [trim, h0]
    | cons b u =>
      rw [lastD_cons a (by simp)] at h0
      have iht := ih (by simp) h0
      by_cases h : trim (b :: u) = []
      · by_cases ha : a = 0 <;> simp only [h, if_pos, if_neg, ha] <;> simp
      · rw [if_neg h]
        simp only [List.length_cons] at iht ⊢
        omega

theorem length_polyAdd (p q : List F) :
    (polyAdd p q).length = max p.length q.length := by
  induction p generalizing q with
  | nil =>
    have h : polyAdd ([] : List F) q = q := by cases q <;> rfl
    simp [h]
  | cons a p ih =>
    cases q with
    | nil => simp [polyAdd]
    | cons b q =>
      show ((a + b) :: polyAdd p q).length = _
      simp only [List.length_cons, ih]
      omega

theorem length_polySub (p q : List F) :
    (polySub p q).length = max p.length q.length := by
  induction p generalizing q with
  | nil =>
    have h : polySub ([] : List F) q = q.map (fun b => -b) := by
      cases q <;> rfl
    simp [h]
  | cons a p ih =>
    cases q with
    | nil => simp [polySub]
    | cons b q =>
      show ((a - b) :: polySub p q).length = _
      simp only [List.length_cons, ih]
      omega

theorem lastD_polySub {p q : List F} (h : p.length = q.length) :
    lastD (polySub p q) = lastD p - lastD q := by
  induction p generalizing q with
  | nil =>
    have hq : q = [] := by
      cases q with
      | nil => rfl
      | cons b l => simp at h
    subst hq
    simp [polySub, lastD_nil]
  | cons a p ih =>
    cases q with
    | nil => simp at h
    | cons b q =>
      have hpq : p.length = q.length := by simpa using h
      show lastD ((a - b) :: polySub p q) = _
      by_cases hpnil : p = []
      · subst hpnil
        have hq : q = [] := by
          cases q with
          | nil => rfl
          | cons c l => simp at hpq
        subst hq
        simp [polySub, lastD_singleton]
      · have hqne : q ≠ [] := by
          intro hq
          subst hq
          simp only [List.length_nil] at hpq
          exact hpnil (List.length_eq_zero.mp hpq)
        have hsubne : polySub p q ≠ [] := by
          intro hcontra
          have hlen := length_polySub p q
          rw [hcontra] at hlen
          simp only [List.length_nil] at hlen
          have hp1 : 0 < p.length := List.length_pos.mpr hpnil
          omega
        rw [lastD_cons _ hsubne, lastD_cons a hpnil, lastD_cons b hqne]
        exact ih hpq

theorem lastD_append_right (xs : List F) {l : List F} (h : l ≠ []) :
    lastD (xs ++ l) = lastD l := by
  induction xs with
  | nil => simp
  | cons a t ih =>
    rw [List.cons_append, lastD_cons]
    · exact ih
    · intro hc
      rw [List.append_eq_nil] at hc
      exact h hc.2

theorem lastD_polyScale (d : List F) (c : F) :
    lastD (polyScale d c) = lastD d * c := by
  induction d with
  | nil => simp [polyScale, lastD_nil]
  | cons a t ih =>
    cases t with
    | nil => simp [polyScale, lastD_singleton]
    | cons b l =>
      show lastD (a * c :: polyScale (b :: l) c) = _
      rw [lastD_cons _ (by simp [polyScale]), lastD_cons a (by simp), ih]

theorem length_polyScale (d : List F) (c : F) :
    (polyScale d c).length = d.length := by
  simp [polyScale]

theorem trim_singleton (c : F) : trim [c] = if c = 0 then [] else [c] := by
  rw [trim_cons]
  simp [trim]

theorem toPoly_degree_lt (p : List F) :
    (toPoly p).degree < (p.length : WithBot Nat) := by
  induction p with
  | nil =>
    rw [toPoly_nil, Polynomial.degree_zero]
    exact WithBot.bot_lt_coe 0
  | cons a t ih =>
    rw [toPoly_cons]
    refine lt_of_le_of_lt (Polynomial.degree_add_le _ _) (max_lt ?_ ?_)
    · refine lt_of_le_of_lt Polynomial.degree_C_le ?_
      exact_mod_cast Nat.succ_pos t.length
    · refine lt_of_le_of_lt (Polynomial.degree_mul_le _ _) ?_
      rw [Polynomial.degree_X]
      have h1 : (1 : WithBot Nat) + (toPoly t).degree <
          (1 : WithBot Nat) + (t.length : WithBot Nat) :=
        WithBot.add_lt_add_left (by simp) ih
      refine lt_of_lt_of_le h1 (le_of_eq ?_)
      rw [List.length_cons]
      push_cast
      ring

/-- Correctness of the fuelled long-division loop: with enough fuel, the
quotient and remainder satisfy the Euclidean identity, the remainder has
degree below the divisor and is trimmed, and the quotient length is bounded. -/
theorem divModAux_spec (d : List F) (hd : lastD d ≠ 0) :
    ∀ fuel p, (trim p).length ≤ fuel →
      toPoly p =
          toPoly d * toPoly (divModAux fuel p d).1 +
            toPoly (divModAux fuel p d).2 ∧
        (divModAux fuel p d).2.length < d.length ∧
        trim (divModAux fuel p d).2 = (divModAux fuel p d).2 ∧
        (divModAux fuel p d).1.length ≤ (trim p).length + 1 - d.length := by
  have hdne : d ≠ [] := fun h => hd (h ▸ lastD_nil)
  have hdlen : 1 ≤ d.length := by
    cases d with
    | nil => exact absurd rfl hdne
    | cons a t => simp
  intro fuel
  induction fuel with
  | zero =>
    intro p hp
    have hpt : trim p = [] := List.length_eq_zero.mp (Nat.le_zero.mp hp)
    refine ⟨?_, ?_, ?_, ?_⟩
    · show toPoly p = toPoly d * toPoly ([] : List F) + toPoly (trim p)
      rw [toPoly_trim, toPoly_nil, mul_zero, zero_add]
    · show (trim p).length < d.length
      rw [hpt]
      simpa using hdlen
    · exact trim_trim p
    · show ([] : List F).length ≤ _
      simp
  | succ fuel ih =>
    intro p hp
    by_cases hlt : (trim p).length < d.length
    · have hunfold : divModAux (fuel + 1) p d = ([], trim p) := by
        rw [divModAux, if_pos hlt]
      rw [hunfold]
      refine ⟨?_, hlt, trim_trim p, by simp⟩
      rw [toPoly_nil, mul_zero, zero_add, toPoly_trim]
    · have hunfold : divModAux (fuel + 1) p d =
          (polyAdd (divModAux fuel (divStep p d) d).1
            (List.replicate ((trim p).length - d.length) 0 ++
              [lastD (trim p) / lastD d]),
            (divModAux fuel (divStep p d) d).2) := by
        rw [divModAux, if_neg hlt]
      have hdle : d.length ≤ (trim p).length := Nat.le_of_not_lt hlt
      have hptne : trim p ≠ [] := by
        intro hc
        rw [hc] at hdle
        simp only [List.length_nil, Nat.le_zero] at hdle
        omega
      have hscale_len :
          (polyScale d (lastD (trim p) / lastD d)).length = d.length :=
        length_polyScale _ _
      have hrep_len : (List.replicate ((trim p).length - d.length) (0 : F) ++
          polyScale d (lastD (trim p) / lastD d)).length =
          (trim p).length := by
        simp only [List.length_append, List.length_replicate, hscale_len]
        omega
      have hs_len : (divStep p d).length = (trim p).length := by
        rw [divStep, length_polySub, hrep_len]
        simp
      have hscane : polyScale d (lastD (trim p) / lastD d) ≠ [] := by
        intro hc
        rw [hc] at hscale_len
        simp at hscale_len
        omega
      have hs_last : lastD (divStep p d) = 0 := by
        rw [divStep, lastD_polySub (by rw [hrep_len])]
        rw [lastD_append_right _ hscane, lastD_polyScale, mul_comm,
          div_mul_cancel₀ _ hd, sub_self]
      have hs_ne : divStep p d ≠ [] := by
        intro hc
        rw [hc] at hs_len
        simp only [List.length_nil] at hs_len
        exact hptne (List.length_eq_zero.mp hs_len.symm)
      have htrim_s : (trim (divStep p d)).length < (trim p).length := by
        calc (trim (divStep p d)).length
            < (divStep p d).length := trim_length_lt hs_ne hs_last
          _ = (trim p).length := hs_len
      have hfuel_s : (trim (divStep p d)).length ≤ fuel := by omega
      obtain ⟨e1, e2, e3, e4⟩ := ih (divStep p d) hfuel_s
      rw [hunfold]
      refine ⟨?_, e2, e3, ?_⟩
      · have hstep : toPoly (divStep p d) =
            toPoly p -
              Polynomial.X ^ ((trim p).length - d.length) *
                (Polynomial.C (lastD (trim p) / lastD d) * toPoly d) := by
          rw [divStep, toPoly_polySub, toPoly_replicate_append,
            toPoly_polyScale, toPoly_trim]
        rw [toPoly_polyAdd, toPoly_replicate_append]
        have hc : toPoly [lastD (trim p) / lastD d] =
            Polynomial.C (lastD (trim p) / lastD d) := by
          rw [toPoly_cons, toPoly_nil]
          ring
        rw [hc]
        rw [hstep] at e1
        linear_combination e1
      · have hlen := length_polyAdd (divModAux fuel (divStep p d) d).1
          (List.replicate ((trim p).length - d.length) (0 : F) ++
            [lastD (trim p) / lastD d])
        simp only [List.length_append, List.length_replicate,
          List.length_singleton] at hlen
        rw [hlen]
        omega

/-- Correctness of `polyDivMod` (arkworks `divide_with_q_and_r`). -/
theorem polyDivMod_spec (p d : List F) (hd : lastD d ≠ 0) :
    toPoly p =
        toPoly d * toPoly (polyDivMod p d).1 + toPoly (polyDivMod p d).2 ∧
      (polyDivMod p d).2.length < d.length ∧
      trim (polyDivMod p d).2 = (polyDivMod p d).2 ∧
      (polyDivMod p d).1.length ≤ (trim p).length + 1 - d.length :=
  divModAux_spec d hd (p.length + 1) p
    (le_trans (trim_length_le p) (by omega))

theorem lastD_linear (z : F) : lastD [-z, 1] = 1 := rfl

theorem toPoly_linear (z : F) :
    toPoly [-z, 1] = Polynomial.X - Polynomial.C z := by
  rw [toPoly_cons, toPoly_cons, toPoly_nil]
  simp only [Polynomial.C_neg, Polynomial.C_1, mul_zero, add_zero, mul_one]
  ring

/-- Euclidean identity for division by the linear polynomial `X - z`, at the
level of evaluations. -/
theorem polyDivMod_linear_eval (p' : List F) (z x : F) :
    polyEval p' x =
      polyEval (polyDivMod p' [-z, 1]).1 x * (x - z) +
        polyEval (polyDivMod p' [-z, 1]).2 x := by
  obtain ⟨e1, _, _, _⟩ := polyDivMod_spec p' [-z, 1] (by rw [lastD_linear]; exact one_ne_zero)
  have := congrArg (Polynomial.eval x) e1
  rw [toPoly_linear] at this
  simpa [toPoly_eval, mul_comm] using this

/-- The remainder of dividing by `X - z` is the constant `p'(z)` (trimmed). -/
theorem polyDivMod_linear_rem (p' : List F) (z : F) :
    (polyDivMod p' [-z, 1]).2 = trim [polyEval p' z] := by
  obtain ⟨e1, e2, e3, _⟩ := polyDivMod_spec p' [-z, 1] (by rw [lastD_linear]; exact one_ne_zero)
  have heval := polyDivMod_linear_eval p' z z
  rw [sub_self, mul_zero, zero_add] at heval
  have hlen2 : (polyDivMod p' [-z, 1]).2.length < 2 := by simpa using e2
  rcases hr : (polyDivMod p' [-z, 1]).2 with _ | ⟨c, rest⟩
  · rw [hr] at heval
    rw [polyEval_nil] at heval
    rw [trim_singleton, if_pos heval]
  · rw [hr] at hlen2 heval e3
    have hrest : rest = [] := by
      simp only [List.length_cons] at hlen2
      exact List.length_eq_zero.mp (by omega)
    subst hrest
    rw [polyEval_singleton] at heval
    have hcne : c ≠ 0 := by
      intro hc0
      rw [hc0, trim_singleton, if_pos rfl] at e3
      exact List.noConfusion e3
    rw [trim_singleton, if_neg (by rw [heval]; exact hcne)]
    rw [heval]

/-- When the divisor `X - z` divides exactly, the algorithm computes the
cofactor: uniqueness of Euclidean division for a linear divisor. -/
theorem polyDivMod_linear_exact (p' : List F) (z : F) (Q0 : Polynomial F)
    (hfac : toPoly p' = (Polynomial.X - Polynomial.C z) * Q0) :
    toPoly (polyDivMod p' [-z, 1]).1 = Q0 := by
  obtain ⟨e1, e2, _, _⟩ := polyDivMod_spec p' [-z, 1] (by rw [lastD_linear]; exact one_ne_zero)
  rw [toPoly_linear] at e1
  have hr : toPoly (polyDivMod p' [-z, 1]).2 =
      (Polynomial.X - Polynomial.C z) *
        (Q0 - toPoly (polyDivMod p' [-z, 1]).1) := by
    linear_combination hfac - e1
  by_contra hne
  have hD : Q0 - toPoly (polyDivMod p' [-z, 1]).1 ≠ 0 :=
    sub_ne_zero.mpr (Ne.symm hne)
  have hdegr : (toPoly (polyDivMod p' [-z, 1]).2).degree < 1 := by
    refine lt_of_lt_of_le (toPoly_degree_lt _) ?_
    have h2 : (polyDivMod p' [-z, 1]).2.length ≤ 1 := by
      have h2' : (polyDivMod p' [-z, 1]).2.length < 2 := by simpa using e2
      omega
    exact_mod_cast h2
  have hdegr' : 1 ≤ (toPoly (polyDivMod p' [-z, 1]).2).degree := by
    rw [hr, Polynomial.degree_mul, Polynomial.degree_X_sub_C]
    exact le_add_of_nonneg_right (Polynomial.zero_le_degree_iff.mpr hD)
  exact absurd hdegr (not_lt.mpr hdegr')

end PolyLemmas

section KZGDefs

variable {F : Type} [Field F] [DecidableEq F]

/-- Vanishing polynomial over a set of roots, from `build_zero_polynomial`
in `src/utils/mod.rs`: the product of the monomials `X - root`.  The source
indexes `polys[0]`, which panics on an empty root set; this is the `none`
case. -/
def buildZeroPolynomial (roots : List F) : Option (List F) :=
  match roots with
  | [] => none
  | r :: rest => some (rest.foldl (fun acc root => polyMulT acc [-root, 1]) [-r, 1])

/-- The polynomial `l(x) = ∏ (X - m)` over the interpolation domain
`0, 1, ..., n-1`, from the first loop of `compute_lagrange_interpolation`
in `src/utils/lagrange/mod.rs`. -/
def lagrangeLx (n : Nat) : List F :=
  (List.range n).foldl (fun acc (m : Nat) => polyMulT acc [-(m : F), 1]) [1]

/-- Barycentric weight `w_j = ∏_{m ≠ j} (j - m)⁻¹` over the domain
`0, 1, ..., n-1`, from the second loop of `compute_lagrange_interpolation`.
The source unwraps the field inverse (which is justified there because the
domain points are distinct); the Lean inverse is total, and the theorems
using this definition carry the injectivity hypothesis that keeps the
divisor nonzero. -/
def lagrangeWeight (n j : Nat) : F :=
  (List.range n).foldl
    (fun acc m => if m ≠ j then acc * ((j : F) - (m : F))⁻¹ else acc) 1

/-- Lagrange interpolation over the domain `0, 1, ..., n-1`, from
`compute_lagrange_interpolation` in `src/utils/lagrange/mod.rs`: each basis
polynomial is obtained by scaling `l(x)` by `w_j` and `y_j` and dividing by
`X - j`. -/
def computeLagrangeInterpolation (yvals : List F) : List F :=
  (List.range yvals.length).foldl
    (fun acc j =>
      polyAddT acc
        ((polyDivMod
            (polyScaleT
              (polyScaleT (lagrangeLx yvals.length)
                (lagrangeWeight yvals.length j))
              (yvals.getD j 0))
            [-(j : F), 1]).1))
    []

/-- The KZG scheme state from `src/cs/pcs/kzg/mod.rs`, in the exponent
model: `g1`, `g2`, the CRS points and `vk` are represented by their
discrete logarithms relative to fixed group generators. -/
structure KZG (F : Type) where
  g1 : F
  g2 : F
  degree : Nat
  crs : List F
  crs_2 : List F
  vk : F

/-- `KZG::new`: empty CRS, `vk` initialised to `g2`. -/
def KZG.new (g1 g2 : F) (degree : Nat) : KZG F :=
  ⟨g1, g2, degree, [], [], g2⟩

/-- `KZG::setup`: pushes `g1·τ^i` and `g2·τ^i` for `i ∈ [0, degree]` onto
the CRS vectors and sets `vk = g2·τ`. -/
def KZG.setup (k : KZG F) (tau : F) : KZG F :=
  { k with
    crs := k.crs ++ (List.range (k.degree + 1)).map (fun i => k.g1 * tau ^ i),
    crs_2 := k.crs_2 ++ (List.range (k.degree + 1)).map (fun i => k.g2 * tau ^ i),
    vk := k.g2 * tau }

/-- `KZG::commit`: sums `crs[i] * coeffs[i]` for `i ∈ [0, degree]`.  The
source indexes both vectors up to `degree`, so the result is `none`
(an out-of-bounds panic) when either is shorter than `degree + 1`. -/
def KZG.commit (k : KZG F) (coeffs : List F) : Option F :=
  if k.degree + 1 ≤ k.crs.length ∧ k.degree + 1 ≤ coeffs.length then
    some ((List.zipWith (· * ·) (k.crs.take (k.degree + 1))
      (coeffs.take (k.degree + 1))).sum)
  else none

/-- `KZG::open` (named `openProof` because `open` is reserved in Lean):
divides `p - y` by `X - z`, keeping only the quotient, and commits the
quotient against the CRS.  The source indexes `crs[i]` for every quotient
coefficient, hence `none` when the quotient is longer than the CRS. -/
def KZG.openProof (k : KZG F) (p : List F) (z y : F) : Option F :=
  if ((polyDivMod (polySubT p [y]) [-z, 1]).1).length ≤ k.crs.length then
    some ((List.zipWith (· * ·) k.crs
      (polyDivMod (polySubT p [y]) [-z, 1]).1).sum)
  else none

/-- `KZG::multi_open`: evaluates `p` on the query points, interpolates the
evaluations over the domain `0..n-1`, builds the vanishing polynomial of
the query points, divides `p - L` by `Z` keeping the quotient, and commits
the quotient against `crs_2`. -/
def KZG.multiOpen (k : KZG F) (p : List F) (zvals : List F) :
    Option (F × List F × List F) :=
  match buildZeroPolynomial zvals with
  | none => none
  | some zp =>
    if ((polyDivMod
          (polySubT p (computeLagrangeInterpolation (zvals.map (fun z => polyEval p z))))
          zp).1).length ≤ k.crs_2.length then
      some ((List.zipWith (· * ·) k.crs_2
          (polyDivMod
            (polySubT p (computeLagrangeInterpolation (zvals.map (fun z => polyEval p z))))
            zp).1).sum,
        computeLagrangeInterpolation (zvals.map (fun z => polyEval p z)), zp)
    else none

/-- `KZG::verify`: the pairing check
`e(pi, vk - g2·z) == e(commitment - g1·y, g2)` in the exponent model. -/
def KZG.verify (k : KZG F) (y z c pi : F) : Bool :=
  decide (pi * (k.vk - k.g2 * z) = (c - k.g1 * y) * k.g2)

/-- `KZG::verify_no_g2_ops`: `e(pi, vk) · e(pi·z, -g2) == e(c - g1·y, g2)`
with the product of target-group values being addition of exponents. -/
def KZG.verifyNoG2Ops (k : KZG F) (y z c pi : F) : Bool :=
  decide (pi * k.vk + pi * z * (-k.g2) = (c - k.g1 * y) * k.g2)

/-- `KZG::verify_no_g2_ops_evm_opcode`:
`(e(pi, vk) · e(pi·(-z) - c + g1·y, g2)).is_one()`. -/
def KZG.verifyNoG2OpsEvmOpcode (k : KZG F) (y z c pi : F) : Bool :=
  decide (pi * k.vk + (pi * (-z) - c + k.g1 * y) * k.g2 = 0)

/-- `KZG::verify_multi_open_no_g2_ops`.  In the source, the two checking
iterators over `z_values.iter().zip(y_values)` are built with `map` and
never consumed, so the `assert_eq!` closures never execute: the function
performs only the final pairing check and ignores `zvals` and `yvals`. -/
def KZG.verifyMultiOpenNoG2Ops (k : KZG F) (commitment : F)
    (zvals yvals : List F) (lagrangePoly zeroPoly : List F) (pi : F) : Bool :=
  decide ((List.zipWith (· * ·) k.crs zeroPoly).sum * pi +
    (-commitment + (List.zipWith (· * ·) k.crs lagrangePoly).sum) * k.g2 = 0)

end KZGDefs

/-- Concrete five-element field used to instantiate theorems on explicit
inputs.  Unlike `ZMod p`, whose inverse is defined through well-founded
recursion that the kernel cannot evaluate, every operation here (inverse is
the cube, by Fermat) reduces definitionally, so `decide` can run the whole
embedding on concrete data. -/
structure F5 where
  val : Fin 5
deriving DecidableEq, Fintype

instance : Zero F5 := ⟨⟨0⟩⟩

instance : One F5 := ⟨⟨1⟩⟩

instance : Add F5 := ⟨fun a b => ⟨a.val + b.val⟩⟩

instance : Mul F5 := ⟨fun a b => ⟨a.val * b.val⟩⟩

instance : Neg F5 := ⟨fun a => ⟨-a.val⟩⟩

instance : Inv F5 := ⟨fun a => ⟨a.val * a.val * a.val⟩⟩

instance : Field F5 :=
  Field.ofMinimalAxioms F5
    (by decide) (by decide) (by decide) (by decide) (by decide)
    (by decide) (by decide) (by decide) (by decide) ⟨0, 1, by decide⟩

section KZGLemmas

variable {F : Type} [Field F] [DecidableEq F]

theorem zipWith_powers_sum (g tau : F) :
    ∀ (p : List F) (n : Nat), p.length ≤ n →
      (List.zipWith (· * ·) ((List.range n).map (fun i => g * tau ^ i)) p).sum =
        g * polyEval p tau := by
  intro p
  induction p generalizing g with
  | nil => intro n _; simp [polyEval_nil]
  | cons a t ih =>
    intro n hn
    cases n with
    | zero => simp at hn
    | succ m =>
      rw [List.range_succ_eq_map]
      simp only [List.map_cons, List.map_map, List.zipWith_cons_cons,
        List.sum_cons]
      have hfun : ((fun i => g * tau ^ i) ∘ Nat.succ) =
          (fun i => (g * tau) * tau ^ i) := by
        funext i
        simp only [Function.comp_apply, pow_succ]
        ring
      rw [hfun, ih (g * tau) m (by simpa using hn), polyEval_cons]
      ring

theorem setup_new_crs (g1 g2 tau : F) (d : Nat) :
    (KZG.setup (KZG.new g1 g2 d) tau).crs =
      (List.range (d + 1)).map (fun i => g1 * tau ^ i) := by
  simp [KZG.setup, KZG.new]

theorem setup_new_crs_length (g1 g2 tau : F) (d : Nat) :
    (KZG.setup (KZG.new g1 g2 d) tau).crs.length = d + 1 := by
  rw [setup_new_crs]
  simp

theorem polySubT_length_le (p : List F) (y : F) (n : Nat) (hp : p.length ≤ n)
    (hn : 1 ≤ n) : (polySubT p [y]).length ≤ n := by
  have h1 := trim_length_le (polySub p [y])
  have h2 := length_polySub p [y]
  simp only [List.length_singleton] at h2
  rw [polySubT]
  omega

theorem polyEval_polySubT_single (p : List F) (y x : F) :
    polyEval (polySubT p [y]) x = polyEval p x - y := by
  rw [polySubT, polyEval_trim, polyEval_polySub, polyEval_singleton]

/-- Quotient length bound for the division performed by `open`. -/
theorem open_quotient_length (p : List F) (z y : F) (n : Nat)
    (hp : p.length ≤ n + 1) :
    ((polyDivMod (polySubT p [y]) [-z, 1]).1).length ≤ n := by
  obtain ⟨_, _, _, e4⟩ := polyDivMod_spec (polySubT p [y]) [-z, 1]
    (by rw [lastD_linear]; exact one_ne_zero)
  have htr : trim (polySubT p [y]) = polySubT p [y] := trim_trim _
  rw [htr] at e4
  have hlen : (polySubT p [y]).length ≤ n + 1 :=
    polySubT_length_le p y (n + 1) hp (by omega)
  simp only [List.length_cons, List.length_singleton] at e4
  omega

end KZGLemmas

section KZGClaims

variable {F : Type} [Field F] [DecidableEq F]

/-- C2 (amended): honest single-point opening flow verifies, for a
polynomial whose coefficient vector has length exactly `degree + 1` (i.e.
degree exactly the CRS bound, in trimmed representation). -/
theorem kzg_single_open_correct (g1 g2 tau z : F) (d : Nat) (p : List F)
    (hp : p.length = d + 1) :
    ∃ c pi, (KZG.setup (KZG.new g1 g2 d) tau).commit p = some c ∧
      (KZG.setup (KZG.new g1 g2 d) tau).openProof p z (polyEval p z) = some pi ∧
      (KZG.setup (KZG.new g1 g2 d) tau).verify (polyEval p z) z c pi = true := by
  have hdeg : (KZG.setup (KZG.new g1 g2 d) tau).degree = d := rfl
  have hlen := setup_new_crs_length g1 g2 tau d
  have hg1 : (KZG.setup (KZG.new g1 g2 d) tau).g1 = g1 := rfl
  have hg2 : (KZG.setup (KZG.new g1 g2 d) tau).g2 = g2 := rfl
  have hvk : (KZG.setup (KZG.new g1 g2 d) tau).vk = g2 * tau := rfl
  -- the quotient of the opening division
  have hq := open_quotient_length p z (polyEval p z) d (by omega)
  have heval0 : polyEval (polySubT p [polyEval p z]) z = 0 := by
    rw [polyEval_polySubT_single, sub_self]
  have hrem : (polyDivMod (polySubT p [polyEval p z]) [-z, 1]).2 = [] := by
    rw [polyDivMod_linear_rem, heval0, trim_singleton, if_pos rfl]
  obtain ⟨e1, _, _, _⟩ := polyDivMod_spec (polySubT p [polyEval p z]) [-z, 1]
    (by rw [lastD_linear]; exact one_ne_zero)
  rw [hrem, toPoly_nil, add_zero, toPoly_linear] at e1
  have hkey : polyEval p tau - polyEval p z =
      (tau - z) *
        polyEval (polyDivMod (polySubT p [polyEval p z]) [-z, 1]).1 tau := by
    have := congrArg (Polynomial.eval tau) e1
    simp only [Polynomial.eval_mul, Polynomial.eval_sub, Polynomial.eval_X,
      Polynomial.eval_C, toPoly_eval] at this
    rw [polyEval_polySubT_single] at this
    exact this
  refine ⟨g1 * polyEval p tau,
    g1 * polyEval (polyDivMod (polySubT p [polyEval p z]) [-z, 1]).1 tau,
    ?_, ?_, ?_⟩
  · simp only [KZG.commit, hdeg]
    rw [if_pos ⟨by omega, by omega⟩]
    rw [List.take_of_length_le (by omega), List.take_of_length_le (by omega),
      setup_new_crs]
    rw [zipWith_powers_sum g1 tau p (d + 1) (by omega)]
  · simp only [KZG.openProof]
    rw [if_pos (by omega)]
    rw [setup_new_crs,
      zipWith_powers_sum g1 tau _ (d + 1) (by omega)]
  · simp only [KZG.verify, hg1, hg2, hvk, decide_eq_true_eq]
    linear_combination (-(g1 * g2)) * hkey

/-- C2 (counterexample to the claim as stated): with a CRS of degree 1, the
honest flow on the degree-0 polynomial `5` cannot even produce a
commitment: `commit` reads `coeffs[1]`, which is out of bounds, so the call
aborts rather than verifying. -/
theorem kzg_commit_low_degree_aborts :
    (KZG.setup (KZG.new (1 : F5) 1 1) 2).commit [2] = none := by decide

/-- C10: `commit` reads exactly the coefficients `0..degree` of its input,
so a coefficient vector shorter than `degree + 1` makes it abort with an
out-of-bounds index (modelled by `none`) instead of returning a
commitment. -/
theorem kzg_commit_short_coeffs (g1 g2 tau : F) (d : Nat) (p : List F)
    (hp : p.length < d + 1) :
    (KZG.setup (KZG.new g1 g2 d) tau).commit p = none := by
  have hdeg : (KZG.setup (KZG.new g1 g2 d) tau).degree = d := rfl
  simp only [KZG.commit, hdeg]
  rw [if_neg]
  intro h
  exact absurd h.2 (by omega)

/-- C4: the three single-point verifiers return the same boolean on every
input tuple, valid or invalid, for every scheme state. -/
theorem kzg_verify_variants_agree (k : KZG F) (y z c pi : F) :
    k.verifyNoG2Ops y z c pi = k.verify y z c pi ∧
      k.verifyNoG2OpsEvmOpcode y z c pi = k.verify y z c pi := by
  constructor
  · simp only [KZG.verifyNoG2Ops, KZG.verify]
    rw [decide_eq_decide]
    constructor <;> intro h <;> linear_combination h
  · simp only [KZG.verifyNoG2OpsEvmOpcode, KZG.verify]
    rw [decide_eq_decide]
    constructor <;> intro h <;> linear_combination h

/-- C7 (counterexample to the claim as stated): `open` called with an
inconsistent evaluation (`p = X`, `z = 0`, claimed `y = 1 ≠ p(0) = 0`) does
not fail: it returns a proof. -/
theorem kzg_open_inconsistent_y_returns_proof :
    polyEval [(0 : F5), 1] 0 ≠ 1 ∧
      (KZG.setup (KZG.new (1 : F5) 1 1) 2).openProof [0, 1] 0 1 =
        some 1 := by decide

/-- C7 (amended): with an inconsistent claimed evaluation the division of
`p - y` by `X - z` does leave the nonzero remainder `p(z) - y`, but `open`
discards the remainder and still returns a proof (the committed quotient)
instead of failing. -/
theorem kzg_open_inconsistent_y_amended (g1 g2 tau z y : F) (d : Nat)
    (p : List F) (hy : y ≠ polyEval p z) (hlen : p.length ≤ d + 2) :
    (polyDivMod (polySubT p [y]) [-z, 1]).2 = [polyEval p z - y] ∧
      ∃ pi, (KZG.setup (KZG.new g1 g2 d) tau).openProof p z y = some pi := by
  constructor
  · rw [polyDivMod_linear_rem, polyEval_polySubT_single, trim_singleton,
      if_neg (sub_ne_zero.mpr (fun h => hy h.symm))]
  · have hlen' := setup_new_crs_length g1 g2 tau d
    have hq := open_quotient_length p z y (d + 1) (by omega)
    simp only [KZG.openProof]
    rw [if_pos (by omega)]
    exact ⟨_, rfl⟩

/-- C8 (counterexample to the claim as stated): committing `X` against a
degree-0 CRS does not return a `DegreeExceeded` error; it silently returns
the commitment of the truncated polynomial (here the zero polynomial). -/
theorem kzg_commit_high_degree_truncates :
    (KZG.setup (KZG.new (1 : F5) 1 0) 2).commit [0, 1] = some 0 := by
  decide

/-- C8 (amended): there is no `DegreeExceeded` error anywhere: `commit`
silently reads only the first `degree + 1` coefficients (so it agrees with
committing the truncation), and `open` on a polynomial one degree above the
bound still returns a proof. -/
theorem kzg_degree_exceeded_amended (g1 g2 tau z y : F) (d : Nat)
    (p : List F) (hp : d + 1 ≤ p.length) :
    (KZG.setup (KZG.new g1 g2 d) tau).commit p =
        (KZG.setup (KZG.new g1 g2 d) tau).commit (p.take (d + 1)) ∧
      (∃ c, (KZG.setup (KZG.new g1 g2 d) tau).commit p = some c) ∧
      (p.length ≤ d + 2 →
        ∃ pi, (KZG.setup (KZG.new g1 g2 d) tau).openProof p z y = some pi) := by
  have hdeg : (KZG.setup (KZG.new g1 g2 d) tau).degree = d := rfl
  have hlen := setup_new_crs_length g1 g2 tau d
  have htake : (p.take (d + 1)).length = d + 1 := by
    rw [List.length_take]
    omega
  refine ⟨?_, ?_, ?_⟩
  · simp only [KZG.commit, hdeg]
    rw [if_pos ⟨by omega, by omega⟩, if_pos ⟨by omega, by omega⟩,
      List.take_take]
    simp
  · simp only [KZG.commit, hdeg]
    rw [if_pos ⟨by omega, by omega⟩]
    exact ⟨_, rfl⟩
  · intro hp2
    have hq := open_quotient_length p z y (d + 1) (by omega)
    simp only [KZG.openProof]
    rw [if_pos (by omega)]
    exact ⟨_, rfl⟩

/-- C9 (amended): `multi_open` on an empty query set aborts inside
`build_zero_polynomial` (out-of-bounds access to `polys[0]`, modelled by
`none`); no error value of any kind is returned. -/
theorem kzg_multi_open_empty_aborts (k : KZG F) (p : List F) :
    k.multiOpen p [] = none := rfl

/-- C9 (counterexample to the claim as stated): a concrete `multi_open`
call with an empty query set aborts (`none`) instead of returning an
`EmptyQuerySet` error value. -/
theorem kzg_multi_open_empty_concrete :
    (KZG.setup (KZG.new (1 : F5) 1 1) 2).multiOpen [1, 2] [] =
      none := rfl

end KZGClaims

section R1CSDefs

variable {F : Type} [Field F] [DecidableEq F]

/-- Elementwise vector addition, the `Add` impl in
`src/utils/linear_algebra/mod.rs`.  The source asserts equal lengths;
theorems carry the corresponding length hypotheses. -/
def vecAdd (v w : List F) : List F := List.zipWith (· + ·) v w

/-- Elementwise vector subtraction, the `Sub` impl. -/
def vecSub (v w : List F) : List F := List.zipWith (· - ·) v w

/-- Elementwise (Hadamard) vector product, the `Mul` impl. -/
def vecHadamard (v w : List F) : List F := List.zipWith (· * ·) v w

/-- `Vector::scalar_mul`: multiplies every element by the scalar. -/
def vecScalarMul (v : List F) (c : F) : List F := v.map (fun a => a * c)

/-- `Vector::is_zero_vector`: true iff every element is zero. -/
def isZeroVector (v : List F) : Bool := v.all (fun a => decide (a = 0))

/-- `Vector::new_zero_vector`. -/
def zeroVector (n : Nat) : List F := List.replicate n 0

/-- Inner product of a matrix row with a vector, the inner loop of
`Matrix::dot_vector`. -/
def dotVec (row v : List F) : F := (List.zipWith (· * ·) row v).sum

/-- A matrix is its list of rows; `Matrix::new` always sets
`num_rows = rows.len()` and `num_cols = rows[0].len()`, so those fields are
derived. -/
structure Matrix (F : Type) where
  rows : List (List F)

def Matrix.num_rows (m : Matrix F) : Nat := m.rows.length

def Matrix.num_cols (m : Matrix F) : Nat := (m.rows.headD []).length

/-- `Matrix::dot_vector`. -/
def Matrix.dotVector (m : Matrix F) (v : List F) : List F :=
  m.rows.map (fun row => dotVec row v)

/-- A plain R1CS equation, from `src/circuits/r1cs/mod.rs`. -/
structure R1CS (F : Type) where
  n_constraints : Nat
  n_witness : Nat
  n_instance : Nat
  a : Matrix F
  b : Matrix F
  c : Matrix F

/-- `R1CS::is_satisfied`: `(A·z) ∘ (B·z) - C·z` is the zero vector. -/
def R1CS.is_satisfied (r : R1CS F) (z : List F) : Bool :=
  isZeroVector
    (vecSub (vecHadamard (r.a.dotVector z) (r.b.dotVector z)) (r.c.dotVector z))

/-- A relaxed R1CS equation, from `src/circuits/relaxed_r1cs/mod.rs`. -/
structure R1CSRelaxed (F : Type) where
  n_constraints : Nat
  n_witness : Nat
  n_instance : Nat
  a : Matrix F
  b : Matrix F
  c : Matrix F
  e : List F
  u : F

/-- The `From<R1CS<F>>` impl: copies the dimensions and matrices, sets
`e` to the zero vector of length `n_constraints` and `u = 1`. -/
def R1CSRelaxed.fromR1CS (r : R1CS F) : R1CSRelaxed F :=
  ⟨r.n_constraints, r.n_witness, r.n_instance, r.a, r.b, r.c,
    zeroVector r.n_constraints, 1⟩

/-- `R1CSRelaxed::from_relaxed_r1cs`. -/
def R1CSRelaxed.from_relaxed_r1cs (a b c : Matrix F) (u : F) (e : List F) :
    R1CSRelaxed F :=
  ⟨a.num_rows, a.num_cols, b.num_cols, a, b, c, e, u⟩

/-- `R1CSRelaxed::is_satisfied`:
`(A·z) ∘ (B·z) - ((C·z)·u + E)` is the zero vector. -/
def R1CSRelaxed.is_satisfied (ins : R1CSRelaxed F) (z : List F) : Bool :=
  isZeroVector
    (vecSub (vecHadamard (ins.a.dotVector z) (ins.b.dotVector z))
      (vecAdd (vecScalarMul (ins.c.dotVector z) ins.u) ins.e))

/-- `R1CSRelaxed::compute_t`:
`T = A·z1 ∘ B·z2 + A·z2 ∘ B·z1 - (C·z2)·u1 - (C·z1)·u2`. -/
def R1CSRelaxed.compute_t (ins rhs : R1CSRelaxed F) (z1 z2 : List F) :
    List F :=
  vecSub
    (vecSub
      (vecAdd (vecHadamard (ins.a.dotVector z1) (ins.b.dotVector z2))
        (vecHadamard (ins.a.dotVector z2) (ins.b.dotVector z1)))
      (vecScalarMul (ins.c.dotVector z2) ins.u))
    (vecScalarMul (ins.c.dotVector z1) rhs.u)

/-- `R1CSRelaxed::compute_u`: `u = u1 + u2 * r`. -/
def R1CSRelaxed.compute_u (ins rhs : R1CSRelaxed F) (r : F) : F :=
  ins.u + rhs.u * r

/-- `R1CSRelaxed::compute_e`: `E = (T·r + E1) + E2·r²`. -/
def R1CSRelaxed.compute_e (ins rhs : R1CSRelaxed F) (r : F)
    (z1 z2 : List F) : List F :=
  vecAdd (vecAdd (vecScalarMul (ins.compute_t rhs z1 z2) r) ins.e)
    (vecScalarMul rhs.e (r * r))

/-- `R1CSRelaxed::compute_z`: `Z = z1 + z2·r`. -/
def R1CSRelaxed.compute_z (ins : R1CSRelaxed F) (r : F) (z1 z2 : List F) :
    List F :=
  vecAdd z1 (vecScalarMul z2 r)

end R1CSDefs

section R1CSLemmas

variable {F : Type} [Field F] [DecidableEq F]

theorem isZeroVector_iff (v : List F) :
    isZeroVector v = true ↔ ∀ i, i < v.length → v.getD i 0 = 0 := by
  rw [isZeroVector, List.all_eq_true]
  constructor
  · intro h i hi
    rw [List.getD_eq_getElem v 0 hi]
    exact of_decide_eq_true (h _ (List.getElem_mem hi))
  · intro h a ha
    obtain ⟨i, hi, rfl⟩ := List.mem_iff_getElem.mp ha
    rw [← List.getD_eq_getElem v 0 hi]
    exact decide_eq_true (h i hi)

theorem getD_zipWith (f : F → F → F) (u v : List F) (i : Nat)
    (hu : i < u.length) (hv : i < v.length) :
    (List.zipWith f u v).getD i 0 = f (u.getD i 0) (v.getD i 0) := by
  rw [List.getD_eq_getElem _ _ (by rw [List.length_zipWith]; omega),
    List.getD_eq_getElem _ _ hu, List.getD_eq_getElem _ _ hv,
    List.getElem_zipWith]

theorem getD_vecScalarMul (v : List F) (c : F) (i : Nat) (hv : i < v.length) :
    (vecScalarMul v c).getD i 0 = v.getD i 0 * c := by
  rw [vecScalarMul, List.getD_eq_getElem _ _ (by simpa using hv),
    List.getD_eq_getElem _ _ hv, List.getElem_map]

theorem getD_dotVector (m : Matrix F) (z : List F) (i : Nat)
    (hi : i < m.rows.length) :
    (m.dotVector z).getD i 0 = dotVec (m.rows.getD i []) z := by
  rw [Matrix.dotVector, List.getD_eq_getElem _ _ (by simpa using hi),
    List.getD_eq_getElem _ _ hi, List.getElem_map]

theorem getD_zeroVector (n i : Nat) :
    (zeroVector (F := F) n).getD i 0 = 0 := by
  rw [zeroVector]
  induction n generalizing i with
  | zero => simp
  | succ m ih =>
    cases i with
    | zero => simp [List.replicate_succ]
    | succ j => simpa [List.replicate_succ] using ih j

theorem length_dotVector (m : Matrix F) (z : List F) :
    (m.dotVector z).length = m.rows.length := by
  simp [Matrix.dotVector]

theorem dotVec_linear (row : List F) :
    ∀ (z1 z2 : List F) (r : F), z1.length = z2.length →
      dotVec row (vecAdd z1 (vecScalarMul z2 r)) =
        dotVec row z1 + dotVec row z2 * r := by
  induction row with
  | nil => intro z1 z2 r _; simp [dotVec]
  | cons a row ih =>
    intro z1 z2 r hz
    cases z1 with
    | nil =>
      have h2 : z2 = [] := by
        cases z2 with
        | nil => rfl
        | cons c t2 => simp at hz
      subst h2
      simp [dotVec, vecAdd, vecScalarMul]
    | cons b t1 =>
      cases z2 with
      | nil => simp at hz
      | cons c t2 =>
        show dotVec (a :: row)
            (vecAdd (b :: t1) ((c * r) :: vecScalarMul t2 r)) = _
        rw [vecAdd, List.zipWith_cons_cons]
        show (List.zipWith (· * ·) (a :: row) _).sum = _
        rw [List.zipWith_cons_cons, List.sum_cons]
        have hih := ih t1 t2 r (by simpa using hz)
        rw [vecAdd] at hih
        show a * (b + c * r) + dotVec row (List.zipWith (· + ·) t1 (vecScalarMul t2 r)) = _
        rw [hih]
        show _ = (List.zipWith (· * ·) (a :: row) (b :: t1)).sum +
          (List.zipWith (· * ·) (a :: row) (c :: t2)).sum * r
        rw [List.zipWith_cons_cons, List.zipWith_cons_cons, List.sum_cons,
          List.sum_cons]
        show _ = (a * b + dotVec row t1) + (a * c + dotVec row t2) * r
        ring

/-- Pointwise reading of `R1CSRelaxed::is_satisfied`. -/
theorem relaxed_is_satisfied_iff (ins : R1CSRelaxed F) (z : List F)
    (hb : ins.b.rows.length = ins.a.rows.length)
    (hc : ins.c.rows.length = ins.a.rows.length)
    (he : ins.e.length = ins.a.rows.length) :
    ins.is_satisfied z = true ↔
      ∀ i, i < ins.a.rows.length →
        dotVec (ins.a.rows.getD i []) z * dotVec (ins.b.rows.getD i []) z -
          (dotVec (ins.c.rows.getD i []) z * ins.u + ins.e.getD i 0) = 0 := by
  rw [R1CSRelaxed.is_satisfied, isZeroVector_iff]
  have hlen : (vecSub (vecHadamard (ins.a.dotVector z) (ins.b.dotVector z))
      (vecAdd (vecScalarMul (ins.c.dotVector z) ins.u) ins.e)).length =
      ins.a.rows.length := by
    simp [vecSub, vecHadamard, vecAdd, vecScalarMul, List.length_zipWith,
      length_dotVector, hb, hc, he]
  rw [hlen]
  refine forall_congr' (fun i => ?_)
  refine imp_congr_right (fun hi => ?_)
  rw [vecSub, getD_zipWith _ _ _ i
      (by simp [vecHadamard, List.length_zipWith, length_dotVector, hb]; omega)
      (by simp [vecAdd, vecScalarMul, List.length_zipWith, length_dotVector,
        hc, he]; omega),
    vecHadamard, getD_zipWith _ _ _ i
      (by simp [length_dotVector]; omega)
      (by simp [length_dotVector, hb]; omega),
    vecAdd, getD_zipWith _ _ _ i
      (by simp [vecScalarMul, length_dotVector, hc]; omega)
      (by omega),
    getD_vecScalarMul _ _ _ (by simp [length_dotVector, hc]; omega),
    getD_dotVector _ _ _ (by omega),
    getD_dotVector _ _ _ (by omega),
    getD_dotVector _ _ _ (by omega)]

/-- Pointwise reading of `R1CS::is_satisfied`. -/
theorem r1cs_is_satisfied_iff (r : R1CS F) (z : List F)
    (hb : r.b.rows.length = r.a.rows.length)
    (hc : r.c.rows.length = r.a.rows.length) :
    r.is_satisfied z = true ↔
      ∀ i, i < r.a.rows.length →
        dotVec (r.a.rows.getD i []) z * dotVec (r.b.rows.getD i []) z -
          dotVec (r.c.rows.getD i []) z = 0 := by
  rw [R1CS.is_satisfied, isZeroVector_iff]
  have hlen : (vecSub (vecHadamard (r.a.dotVector z) (r.b.dotVector z))
      (r.c.dotVector z)).length = r.a.rows.length := by
    simp [vecSub, vecHadamard, List.length_zipWith, length_dotVector, hb, hc]
  rw [hlen]
  refine forall_congr' (fun i => ?_)
  refine imp_congr_right (fun hi => ?_)
  rw [vecSub, getD_zipWith _ _ _ i
      (by simp [vecHadamard, List.length_zipWith, length_dotVector, hb]; omega)
      (by simp [length_dotVector, hc]; omega),
    vecHadamard, getD_zipWith _ _ _ i
      (by simp [length_dotVector]; omega)
      (by simp [length_dotVector, hb]; omega),
    getD_dotVector _ _ _ (by omega),
    getD_dotVector _ _ _ (by omega),
    getD_dotVector _ _ _ (by omega)]

end R1CSLemmas

section R1CSClaims

variable {F : Type} [Field F] [DecidableEq F]

/-- C3: lifting a plain R1CS sets `u = 1`, `e = 0` of length
`n_constraints`, keeps the matrices, and preserves satisfaction. -/
theorem lift_r1cs_correct (r : R1CS F) (z : List F)
    (hb : r.b.rows.length = r.a.rows.length)
    (hc : r.c.rows.length = r.a.rows.length)
    (hnc : r.n_constraints = r.a.rows.length)
    (hsat : r.is_satisfied z = true) :
    (R1CSRelaxed.fromR1CS r).u = 1 ∧
      (R1CSRelaxed.fromR1CS r).e = zeroVector r.n_constraints ∧
      (R1CSRelaxed.fromR1CS r).a = r.a ∧
      (R1CSRelaxed.fromR1CS r).b = r.b ∧
      (R1CSRelaxed.fromR1CS r).c = r.c ∧
      (R1CSRelaxed.fromR1CS r).is_satisfied z = true := by
  refine ⟨rfl, rfl, rfl, rfl, rfl, ?_⟩
  have he : (R1CSRelaxed.fromR1CS r).e.length =
      (R1CSRelaxed.fromR1CS r).a.rows.length := by
    show (zeroVector r.n_constraints).length = r.a.rows.length
    simp [zeroVector, hnc]
  rw [relaxed_is_satisfied_iff _ _ hb hc he]
  intro i hi
  have hs := (r1cs_is_satisfied_iff r z hb hc).mp hsat i hi
  show dotVec (r.a.rows.getD i []) z * dotVec (r.b.rows.getD i []) z -
    (dotVec (r.c.rows.getD i []) z * (1 : F) +
      (zeroVector r.n_constraints).getD i 0) = 0
  rw [getD_zeroVector]
  linear_combination hs

/-- C1: folding soundness.  Two relaxed instances with the same matrices,
satisfied by `z1` and `z2`, fold — for every challenge `r` — into an
instance with `u' = compute_u`, `E' = compute_e` and the same matrices that
is satisfied by `compute_z r z1 z2`. -/
theorem folding_sound (ins1 ins2 : R1CSRelaxed F) (z1 z2 : List F) (r : F)
    (hA : ins2.a = ins1.a) (hB : ins2.b = ins1.b) (hC : ins2.c = ins1.c)
    (hb : ins1.b.rows.length = ins1.a.rows.length)
    (hc : ins1.c.rows.length = ins1.a.rows.length)
    (he1 : ins1.e.length = ins1.a.rows.length)
    (he2 : ins2.e.length = ins1.a.rows.length)
    (hz : z1.length = z2.length)
    (h1 : ins1.is_satisfied z1 = true) (h2 : ins2.is_satisfied z2 = true) :
    (R1CSRelaxed.from_relaxed_r1cs ins1.a ins1.b ins1.c
        (ins1.compute_u ins2 r) (ins1.compute_e ins2 r z1 z2)).is_satisfied
      (ins1.compute_z r z1 z2) = true := by
  have s1 := (relaxed_is_satisfied_iff ins1 z1 hb hc he1).mp h1
  have s2 := (relaxed_is_satisfied_iff ins2 z2 (by rw [hA, hB]; exact hb)
    (by rw [hA, hC]; exact hc) (by rw [hA]; exact he2)).mp h2
  rw [hA, hB, hC] at s2
  have hTlen : (ins1.compute_t ins2 z1 z2).length = ins1.a.rows.length := by
    simp [R1CSRelaxed.compute_t, vecSub, vecAdd, vecHadamard, vecScalarMul,
      List.length_zipWith, length_dotVector, hb, hc]
  have hElen : (ins1.compute_e ins2 r z1 z2).length =
      ins1.a.rows.length := by
    simp [R1CSRelaxed.compute_e, vecAdd, vecScalarMul, List.length_zipWith,
      hTlen, he1, he2]
  rw [relaxed_is_satisfied_iff
    (R1CSRelaxed.from_relaxed_r1cs ins1.a ins1.b ins1.c
      (ins1.compute_u ins2 r) (ins1.compute_e ins2 r z1 z2))
    (ins1.compute_z r z1 z2) hb hc hElen]
  intro i hifold
  have hi : i < ins1.a.rows.length := hifold
  have hTgetD : (ins1.compute_t ins2 z1 z2).getD i 0 =
      dotVec (ins1.a.rows.getD i []) z1 * dotVec (ins1.b.rows.getD i []) z2 +
        dotVec (ins1.a.rows.getD i []) z2 *
          dotVec (ins1.b.rows.getD i []) z1 -
        dotVec (ins1.c.rows.getD i []) z2 * ins1.u -
        dotVec (ins1.c.rows.getD i []) z1 * ins2.u := by
    rw [R1CSRelaxed.compute_t, vecSub,
      getD_zipWith _ _ _ i (by (try simp only [R1CSRelaxed.compute_t, vecAdd, vecSub, vecHadamard, vecScalarMul, Matrix.dotVector, List.length_zipWith, List.length_map]); omega) (by (try simp only [R1CSRelaxed.compute_t, vecAdd, vecSub, vecHadamard, vecScalarMul, Matrix.dotVector, List.length_zipWith, List.length_map]); omega),
      vecSub, getD_zipWith _ _ _ i (by (try simp only [R1CSRelaxed.compute_t, vecAdd, vecSub, vecHadamard, vecScalarMul, Matrix.dotVector, List.length_zipWith, List.length_map]); omega) (by (try simp only [R1CSRelaxed.compute_t, vecAdd, vecSub, vecHadamard, vecScalarMul, Matrix.dotVector, List.length_zipWith, List.length_map]); omega),
      vecAdd, getD_zipWith _ _ _ i (by (try simp only [R1CSRelaxed.compute_t, vecAdd, vecSub, vecHadamard, vecScalarMul, Matrix.dotVector, List.length_zipWith, List.length_map]); omega) (by (try simp only [R1CSRelaxed.compute_t, vecAdd, vecSub, vecHadamard, vecScalarMul, Matrix.dotVector, List.length_zipWith, List.length_map]); omega),
      vecHadamard,
      getD_zipWith _ _ _ i (by (try simp only [R1CSRelaxed.compute_t, vecAdd, vecSub, vecHadamard, vecScalarMul, Matrix.dotVector, List.length_zipWith, List.length_map]); omega) (by (try simp only [R1CSRelaxed.compute_t, vecAdd, vecSub, vecHadamard, vecScalarMul, Matrix.dotVector, List.length_zipWith, List.length_map]); omega),
      vecHadamard,
      getD_zipWith _ _ _ i (by (try simp only [R1CSRelaxed.compute_t, vecAdd, vecSub, vecHadamard, vecScalarMul, Matrix.dotVector, List.length_zipWith, List.length_map]); omega) (by (try simp only [R1CSRelaxed.compute_t, vecAdd, vecSub, vecHadamard, vecScalarMul, Matrix.dotVector, List.length_zipWith, List.length_map]); omega),
      getD_vecScalarMul _ _ _ (by (try simp only [R1CSRelaxed.compute_t, vecAdd, vecSub, vecHadamard, vecScalarMul, Matrix.dotVector, List.length_zipWith, List.length_map]); omega),
      getD_vecScalarMul _ _ _ (by (try simp only [R1CSRelaxed.compute_t, vecAdd, vecSub, vecHadamard, vecScalarMul, Matrix.dotVector, List.length_zipWith, List.length_map]); omega),
      getD_dotVector _ _ _ (by (try simp only [R1CSRelaxed.compute_t, vecAdd, vecSub, vecHadamard, vecScalarMul, Matrix.dotVector, List.length_zipWith, List.length_map]); omega),
      getD_dotVector _ _ _ (by (try simp only [R1CSRelaxed.compute_t, vecAdd, vecSub, vecHadamard, vecScalarMul, Matrix.dotVector, List.length_zipWith, List.length_map]); omega),
      getD_dotVector _ _ _ (by (try simp only [R1CSRelaxed.compute_t, vecAdd, vecSub, vecHadamard, vecScalarMul, Matrix.dotVector, List.length_zipWith, List.length_map]); omega),
      getD_dotVector _ _ _ (by (try simp only [R1CSRelaxed.compute_t, vecAdd, vecSub, vecHadamard, vecScalarMul, Matrix.dotVector, List.length_zipWith, List.length_map]); omega),
      getD_dotVector _ _ _ (by (try simp only [R1CSRelaxed.compute_t, vecAdd, vecSub, vecHadamard, vecScalarMul, Matrix.dotVector, List.length_zipWith, List.length_map]); omega),
      getD_dotVector _ _ _ (by (try simp only [R1CSRelaxed.compute_t, vecAdd, vecSub, vecHadamard, vecScalarMul, Matrix.dotVector, List.length_zipWith, List.length_map]); omega)]
  have hEgetD : (ins1.compute_e ins2 r z1 z2).getD i 0 =
      ((ins1.compute_t ins2 z1 z2).getD i 0 * r + ins1.e.getD i 0) +
        ins2.e.getD i 0 * (r * r) := by
    rw [R1CSRelaxed.compute_e, vecAdd,
      getD_zipWith _ _ _ i (by (try simp only [R1CSRelaxed.compute_t, vecAdd, vecSub, vecHadamard, vecScalarMul, Matrix.dotVector, List.length_zipWith, List.length_map]); omega) (by (try simp only [R1CSRelaxed.compute_t, vecAdd, vecSub, vecHadamard, vecScalarMul, Matrix.dotVector, List.length_zipWith, List.length_map]); omega),
      vecAdd, getD_zipWith _ _ _ i (by (try simp only [R1CSRelaxed.compute_t, vecAdd, vecSub, vecHadamard, vecScalarMul, Matrix.dotVector, List.length_zipWith, List.length_map]); omega) (by (try simp only [R1CSRelaxed.compute_t, vecAdd, vecSub, vecHadamard, vecScalarMul, Matrix.dotVector, List.length_zipWith, List.length_map]); omega),
      getD_vecScalarMul _ _ _ (by (try simp only [R1CSRelaxed.compute_t, vecAdd, vecSub, vecHadamard, vecScalarMul, Matrix.dotVector, List.length_zipWith, List.length_map]); omega),
      getD_vecScalarMul _ _ _ (by (try simp only [R1CSRelaxed.compute_t, vecAdd, vecSub, vecHadamard, vecScalarMul, Matrix.dotVector, List.length_zipWith, List.length_map]); omega)]
  have hlin : ∀ row : List F,
      dotVec row (ins1.compute_z r z1 z2) =
        dotVec row z1 + dotVec row z2 * r :=
    fun row => dotVec_linear row z1 z2 r hz
  show dotVec (ins1.a.rows.getD i []) (ins1.compute_z r z1 z2) *
      dotVec (ins1.b.rows.getD i []) (ins1.compute_z r z1 z2) -
      (dotVec (ins1.c.rows.getD i []) (ins1.compute_z r z1 z2) *
          (ins1.compute_u ins2 r) +
        (ins1.compute_e ins2 r z1 z2).getD i 0) = 0
  rw [hlin, hlin, hlin, hEgetD, hTgetD, R1CSRelaxed.compute_u]
  linear_combination (s1 i hi) + (r * r) * (s2 i hi)

end R1CSClaims

section LagrangeLemmas

variable {F : Type} [Field F] [DecidableEq F]

theorem foldl_mul_range (f : Nat → F) (n : Nat) :
    (List.range n).foldl (fun acc m => acc * f m) 1 =
      ∏ m ∈ Finset.range n, f m := by
  induction n with
  | zero => simp
  | succ k ih =>
    rw [List.range_succ, List.foldl_append, Finset.prod_range_succ, ih]
    rfl

theorem lagrangeWeight_eq_prod (n j : Nat) :
    lagrangeWeight (F := F) n j =
      ∏ m ∈ Finset.range n, (if m ≠ j then ((j : F) - (m : F))⁻¹ else 1) := by
  rw [lagrangeWeight]
  have h : ∀ (acc : F) (m : Nat),
      (if m ≠ j then acc * ((j : F) - (m : F))⁻¹ else acc) =
        acc * (if m ≠ j then ((j : F) - (m : F))⁻¹ else 1) := by
    intro acc m
    by_cases hm : m ≠ j <;> simp [hm]
  simp only [h]
  exact foldl_mul_range _ n

theorem toPoly_one : toPoly [(1 : F)] = 1 := by
  rw [toPoly_cons, toPoly_nil]
  simp

theorem toPoly_foldl_mulT (g : Nat → List F) (n : Nat) (init : List F) :
    toPoly ((List.range n).foldl (fun acc m => polyMulT acc (g m)) init) =
      toPoly init * ∏ m ∈ Finset.range n, toPoly (g m) := by
  induction n with
  | zero => simp
  | succ k ih =>
    rw [List.range_succ, List.foldl_append, Finset.prod_range_succ]
    show toPoly (polyMulT _ (g k)) = _
    rw [polyMulT, toPoly_trim, toPoly_polyMul, ih]
    ring

theorem toPoly_lagrangeLx (n : Nat) :
    toPoly (lagrangeLx (F := F) n) =
      ∏ m ∈ Finset.range n, (Polynomial.X - Polynomial.C (m : F)) := by
  rw [lagrangeLx, toPoly_foldl_mulT, toPoly_one, one_mul]
  exact Finset.prod_congr rfl (fun m _ => toPoly_linear (m : F))

theorem toPoly_foldl_addT (g : Nat → List F) (n : Nat) (init : List F) :
    toPoly ((List.range n).foldl (fun acc j => polyAddT acc (g j)) init) =
      toPoly init + ∑ j ∈ Finset.range n, toPoly (g j) := by
  induction n with
  | zero => simp
  | succ k ih =>
    rw [List.range_succ, List.foldl_append, Finset.sum_range_succ]
    show toPoly (polyAddT _ (g k)) = _
    rw [polyAddT, toPoly_trim, toPoly_polyAdd, ih]
    ring

theorem toPoly_polyScaleT (p : List F) (c : F) :
    toPoly (polyScaleT p c) = Polynomial.C c * toPoly p := by
  rw [polyScaleT, toPoly_trim, toPoly_polyScale]

/-- The quotient basis polynomial computed by the interpolation loop. -/
theorem toPoly_lagrange_basis (n j : Nat) (hj : j < n) (y w : F) :
    toPoly ((polyDivMod (polyScaleT (polyScaleT (lagrangeLx n) w) y)
        [-(j : F), 1]).1) =
      Polynomial.C y * Polynomial.C w *
        ∏ m ∈ (Finset.range n).erase j,
          (Polynomial.X - Polynomial.C (m : F)) := by
  apply polyDivMod_linear_exact
  rw [toPoly_polyScaleT, toPoly_polyScaleT, toPoly_lagrangeLx,
    ← Finset.mul_prod_erase (Finset.range n) _ (Finset.mem_range.mpr hj)]
  ring

/-- Lagrange interpolation correctness (`compute_lagrange_interpolation`):
the interpolated polynomial takes value `yvals[i]` at the domain point `i`,
whenever the casts of `0, ..., n-1` into the field are injective. -/
theorem computeLagrange_eval (yvals : List F) (i : Nat)
    (hi : i < yvals.length)
    (hinj : ∀ a, a < yvals.length → ∀ b, b < yvals.length →
      (a : F) = (b : F) → a = b) :
    polyEval (computeLagrangeInterpolation yvals) ((i : Nat) : F) =
      yvals.getD i 0 := by
  rw [← toPoly_eval, computeLagrangeInterpolation, toPoly_foldl_addT,
    toPoly_nil, zero_add]
  rw [Finset.sum_congr rfl (fun j hj =>
    toPoly_lagrange_basis yvals.length j (Finset.mem_range.mp hj)
      (yvals.getD j 0) (lagrangeWeight yvals.length j))]
  rw [Polynomial.eval_finset_sum]
  rw [Finset.sum_eq_single i]
  · simp only [Polynomial.eval_mul, Polynomial.eval_C, Polynomial.eval_prod,
      Polynomial.eval_sub, Polynomial.eval_X]
    have hw : lagrangeWeight (F := F) yvals.length i =
        (∏ m ∈ (Finset.range yvals.length).erase i, ((i : F) - (m : F)))⁻¹ := by
      rw [lagrangeWeight_eq_prod, ← Finset.prod_filter, Finset.filter_ne',
        Finset.prod_inv_distrib]
    have hne : (∏ m ∈ (Finset.range yvals.length).erase i,
        ((i : F) - (m : F))) ≠ 0 := by
      rw [Finset.prod_ne_zero_iff]
      intro m hm
      obtain ⟨hmi, hmr⟩ := Finset.mem_erase.mp hm
      refine sub_ne_zero.mpr (fun hcast => ?_)
      exact hmi (hinj i hi m (Finset.mem_range.mp hmr) hcast).symm
    rw [hw, mul_assoc, inv_mul_cancel₀ hne, mul_one]
  · intro j hj hji
    simp only [Polynomial.eval_mul, Polynomial.eval_C, Polynomial.eval_prod,
      Polynomial.eval_sub, Polynomial.eval_X]
    have hzero : (∏ m ∈ (Finset.range yvals.length).erase j,
        ((i : F) - (m : F))) = 0 := by
      refine Finset.prod_eq_zero
        (Finset.mem_erase.mpr ⟨Ne.symm hji, Finset.mem_range.mpr hi⟩) ?_
      exact sub_self _
    rw [hzero, mul_zero]
  · intro hni
    exact absurd (Finset.mem_range.mpr hi) hni

theorem polyEval_polyMulT (a b : List F) (x : F) :
    polyEval (polyMulT a b) x = polyEval a x * polyEval b x := by
  rw [← toPoly_eval, polyMulT, toPoly_trim, toPoly_polyMul,
    Polynomial.eval_mul, toPoly_eval, toPoly_eval]

theorem polyEval_linear (a x : F) : polyEval [-a, 1] x = x - a := by
  simp [polyEval]
  ring

theorem polyEval_foldl_mulT (l : List F) (x : F) :
    ∀ init : List F,
      polyEval (l.foldl (fun acc root => polyMulT acc [-root, 1]) init) x =
        polyEval init x * (l.map (fun root => x - root)).prod := by
  induction l with
  | nil => intro init; simp
  | cons a t ih =>
    intro init
    rw [List.foldl_cons, ih, polyEval_polyMulT, polyEval_linear,
      List.map_cons, List.prod_cons]
    ring

/-- `build_zero_polynomial` vanishes at every root it is given. -/
theorem buildZero_eval (roots : List F) (zp : List F)
    (h : buildZeroPolynomial roots = some zp) :
    ∀ x ∈ roots, polyEval zp x = 0 := by
  cases roots with
  | nil => exact absurd h (by simp [buildZeroPolynomial])
  | cons r rest =>
    have hz : zp = rest.foldl (fun acc root => polyMulT acc [-root, 1])
        [-r, 1] := by
      have : some (rest.foldl (fun acc root => polyMulT acc [-root, 1])
          [-r, 1]) = some zp := h
      exact (Option.some_inj.mp this).symm
    subst hz
    intro x hx
    rw [polyEval_foldl_mulT, polyEval_linear]
    rcases List.mem_cons.mp hx with hxr | hxrest
    · rw [hxr, sub_self, zero_mul]
    · have : (0 : F) ∈ rest.map (fun root => x - root) := by
        rw [List.mem_map]
        exact ⟨x, hxrest, sub_self x⟩
      rw [List.prod_eq_zero this, mul_zero]

end LagrangeLemmas

section MultiOpenClaims

variable {F : Type} [Field F] [DecidableEq F]

/-- C5 (amended): when `multi_open` returns `(pi, L, Z)`, the interpolated
polynomial `L` matches `p` on the query values over the index domain —
`L(i) = p(z_i)`, not `L(z_i) = p(z_i)` — the vanishing polynomial `Z`
vanishes at every query point, and `pi` is the `crs_2`-commitment of the
quotient of `p - L` by `Z`. -/
theorem kzg_multi_open_amended (k : KZG F) (p : List F) (zvals : List F)
    (pi : F) (L Z : List F)
    (hinj : ∀ a, a < zvals.length → ∀ b, b < zvals.length →
      (a : F) = (b : F) → a = b)
    (hsome : k.multiOpen p zvals = some (pi, L, Z)) :
    (∀ i, i < zvals.length →
        polyEval L ((i : Nat) : F) = polyEval p (zvals.getD i 0)) ∧
      (∀ x ∈ zvals, polyEval Z x = 0) ∧
      pi = (List.zipWith (· * ·) k.crs_2
        (polyDivMod (polySubT p L) Z).1).sum := by
  rw [KZG.multiOpen] at hsome
  cases hz : buildZeroPolynomial zvals with
  | none =>
    rw [hz] at hsome
    exact absurd hsome (by simp)
  | some zp =>
    rw [hz] at hsome
    have hsome2 : (if ((polyDivMod (polySubT p
        (computeLagrangeInterpolation
          (zvals.map (fun z => polyEval p z)))) zp).1).length ≤
        k.crs_2.length then
        some ((List.zipWith (· * ·) k.crs_2
            (polyDivMod (polySubT p (computeLagrangeInterpolation
              (zvals.map (fun z => polyEval p z)))) zp).1).sum,
          computeLagrangeInterpolation (zvals.map (fun z => polyEval p z)),
          zp)
      else none) = some (pi, L, Z) := hsome
    by_cases hguard : ((polyDivMod (polySubT p
        (computeLagrangeInterpolation
          (zvals.map (fun z => polyEval p z)))) zp).1).length ≤
        k.crs_2.length
    · rw [if_pos hguard] at hsome2
      have htup := Option.some_inj.mp hsome2
      have h1 : (List.zipWith (· * ·) k.crs_2 (polyDivMod (polySubT p
          (computeLagrangeInterpolation
            (zvals.map (fun z => polyEval p z)))) zp).1).sum = pi :=
        congrArg Prod.fst htup
      have h2 : computeLagrangeInterpolation
          (zvals.map (fun z => polyEval p z)) = L :=
        congrArg (fun t => t.2.1) htup
      have h3 : zp = Z := congrArg (fun t => t.2.2) htup
      subst h2
      subst h3
      refine ⟨?_, buildZero_eval zvals _ hz, h1.symm⟩
      intro i hi
      have hgd : (zvals.map (fun z => polyEval p z)).getD i 0 =
          polyEval p (zvals.getD i 0) := by
        rw [List.getD_eq_getElem _ _ (by simpa using hi), List.getElem_map,
          List.getD_eq_getElem _ _ hi]
      rw [computeLagrange_eval _ i (by simpa using hi)
        (by simpa using hinj), hgd]
    · rw [if_neg hguard] at hsome2
      exact absurd hsome2 (by simp)

/-- C5 (counterexample to the claim as stated): for `p = X` and query
points `{2, 3}`, `multi_open` succeeds but the returned `L` does not
interpolate the query set: `L(z_0) = L(2) = 4 ≠ 2 = p(2)` (the
interpolation domain is `0, 1, ..., n-1`, not the query points). -/
theorem kzg_multi_open_not_query_interpolation :
    (KZG.setup (KZG.new (1 : F5) 1 3) 2).multiOpen [0, 1] [2, 3] =
        some (0, [2, 1], [1, 0, 1]) ∧
      polyEval [(2 : F5), 1] 2 ≠ polyEval [(0 : F5), 1] 2 := by decide

/-- C6 (code bug): the `assert_eq!` checks of
`verify_multi_open_no_g2_ops` are inside lazy iterator `map` closures that
are never consumed, so they never run and `y_values` is ignored entirely.
Concretely, for the honest commitment and opening of `p = 1 + X` at
`{0, 1}`, tampering `y_1` from `2` to `4` (which disagrees with `L`) still
verifies. -/
theorem kzg_verify_multi_open_accepts_tampered_y :
    (KZG.setup (KZG.new (1 : F5) 1 1) 2).commit [1, 1] = some 3 ∧
      (KZG.setup (KZG.new (1 : F5) 1 1) 2).multiOpen [1, 1] [0, 1] =
        some (0, [1, 1], [0, 4, 1]) ∧
      polyEval [(1 : F5), 1] 1 ≠ 4 ∧
      (KZG.setup (KZG.new (1 : F5) 1 1) 2).verifyMultiOpenNoG2Ops 3 [0, 1]
        [1, 4] [1, 1] [0, 4, 1] 0 = true := by decide

end MultiOpenClaims

section Witnesses

/-- Witness for the amended single-point opening correctness at
`p = 2 + 3X`, degree bound 1, `τ = 2`, `z = 3` over the concrete field. -/
theorem kzg_single_open_correct_witness :
    ([(2 : F5), 3].length = 1 + 1) ∧
      (∃ c pi, (KZG.setup (KZG.new (1 : F5) 1 1) 2).commit [2, 3] = some c ∧
        (KZG.setup (KZG.new (1 : F5) 1 1) 2).openProof [2, 3] 3
          (polyEval [(2 : F5), 3] 3) = some pi ∧
        (KZG.setup (KZG.new (1 : F5) 1 1) 2).verify
          (polyEval [(2 : F5), 3] 3) 3 c pi = true) :=
  ⟨by decide, kzg_single_open_correct 1 1 2 3 1 [2, 3] (by decide)⟩

/-- Witness for the short-coefficient-vector commit panic at degree bound
2 and a length-2 coefficient vector. -/
theorem kzg_commit_short_coeffs_witness :
    ([(1 : F5), 2].length < 2 + 1) ∧
      (KZG.setup (KZG.new (1 : F5) 1 2) 2).commit [1, 2] = none :=
  ⟨by decide, kzg_commit_short_coeffs 1 1 2 2 [1, 2] (by decide)⟩

/-- Witness for the amended inconsistent-evaluation behaviour of `open`
at `p = X`, `z = 0`, claimed `y = 1`. -/
theorem kzg_open_inconsistent_y_witness :
    ((1 : F5) ≠ polyEval [(0 : F5), 1] 0) ∧
      ([(0 : F5), 1].length ≤ 1 + 2) ∧
      ((polyDivMod (polySubT [(0 : F5), 1] [1]) [-(0 : F5), 1]).2 =
          [polyEval [(0 : F5), 1] 0 - 1] ∧
        ∃ pi, (KZG.setup (KZG.new (1 : F5) 1 1) 2).openProof [0, 1] 0 1 =
          some pi) :=
  ⟨by decide, by decide,
    kzg_open_inconsistent_y_amended 1 1 2 0 1 1 [0, 1] (by decide)
      (by decide)⟩

/-- Witness for the amended degree-bound behaviour at degree bound 0 and
`p = X`. -/
theorem kzg_degree_exceeded_witness :
    (0 + 1 ≤ [(0 : F5), 1].length) ∧
      ((KZG.setup (KZG.new (1 : F5) 1 0) 2).commit [0, 1] =
          (KZG.setup (KZG.new (1 : F5) 1 0) 2).commit
            ([(0 : F5), 1].take (0 + 1)) ∧
        (∃ c, (KZG.setup (KZG.new (1 : F5) 1 0) 2).commit [0, 1] = some c) ∧
        ([(0 : F5), 1].length ≤ 0 + 2 →
          ∃ pi, (KZG.setup (KZG.new (1 : F5) 1 0) 2).openProof [0, 1] 1 2 =
            some pi)) :=
  ⟨by decide, kzg_degree_exceeded_amended 1 1 2 1 2 0 [0, 1] (by decide)⟩

/-- Witness for the amended multi-open properties on the honest opening of
`p = 1 + X` at the query set `{0, 1}`. -/
theorem kzg_multi_open_amended_witness :
    (∀ a, a < [(0 : F5), 1].length → ∀ b, b < [(0 : F5), 1].length →
        ((a : Nat) : F5) = ((b : Nat) : F5) → a = b) ∧
      ((KZG.setup (KZG.new (1 : F5) 1 1) 2).multiOpen [1, 1] [0, 1] =
        some (0, [1, 1], [0, 4, 1])) ∧
      ((∀ i, i < [(0 : F5), 1].length →
          polyEval [(1 : F5), 1] ((i : Nat) : F5) =
            polyEval [(1 : F5), 1] ([(0 : F5), 1].getD i 0)) ∧
        (∀ x ∈ [(0 : F5), 1], polyEval [(0 : F5), 4, 1] x = 0) ∧
        (0 : F5) = (List.zipWith (· * ·)
          (KZG.setup (KZG.new (1 : F5) 1 1) 2).crs_2
          (polyDivMod (polySubT [1, 1] [1, 1]) [0, 4, 1]).1).sum) :=
  ⟨by decide, by decide,
    kzg_multi_open_amended (KZG.setup (KZG.new (1 : F5) 1 1) 2) [1, 1]
      [0, 1] 0 [1, 1] [0, 4, 1] (by decide) (by decide)⟩

/-- Fixture: a one-constraint relaxed R1CS (`x * x = x`) over the concrete
field, satisfied by `z = [1]`. -/
def testRelaxed : R1CSRelaxed F5 :=
  ⟨1, 1, 1, ⟨[[1]]⟩, ⟨[[1]]⟩, ⟨[[1]]⟩, [0], 1⟩

/-- Witness for folding soundness: folding the fixture with itself under
the challenge `r = 2`. -/
theorem folding_sound_witness :
    (testRelaxed.a = testRelaxed.a) ∧ (testRelaxed.b = testRelaxed.b) ∧
      (testRelaxed.c = testRelaxed.c) ∧
      (testRelaxed.b.rows.length = testRelaxed.a.rows.length) ∧
      (testRelaxed.c.rows.length = testRelaxed.a.rows.length) ∧
      (testRelaxed.e.length = testRelaxed.a.rows.length) ∧
      (testRelaxed.e.length = testRelaxed.a.rows.length) ∧
      (([(1 : F5)] : List F5).length = ([(1 : F5)] : List F5).length) ∧
      (testRelaxed.is_satisfied [1] = true) ∧
      (testRelaxed.is_satisfied [1] = true) ∧
      ((R1CSRelaxed.from_relaxed_r1cs testRelaxed.a testRelaxed.b
          testRelaxed.c (testRelaxed.compute_u testRelaxed 2)
          (testRelaxed.compute_e testRelaxed 2 [1] [1])).is_satisfied
        (testRelaxed.compute_z 2 [1] [1]) = true) :=
  ⟨rfl, rfl, rfl, rfl, rfl, by decide, by decide, rfl, by decide, by decide,
    folding_sound testRelaxed testRelaxed [1] [1] 2 rfl rfl rfl rfl rfl
      (by decide) (by decide) rfl (by decide) (by decide)⟩

/-- Fixture: the plain R1CS underlying `testRelaxed`. -/
def testR1CS : R1CS F5 := ⟨1, 1, 1, ⟨[[1]]⟩, ⟨[[1]]⟩, ⟨[[1]]⟩⟩

/-- Witness for the lifting theorem on the fixture R1CS. -/
theorem lift_r1cs_correct_witness :
    (testR1CS.b.rows.length = testR1CS.a.rows.length) ∧
      (testR1CS.c.rows.length = testR1CS.a.rows.length) ∧
      (testR1CS.n_constraints = testR1CS.a.rows.length) ∧
      (testR1CS.is_satisfied [1] = true) ∧
      ((R1CSRelaxed.fromR1CS testR1CS).u = 1 ∧
        (R1CSRelaxed.fromR1CS testR1CS).e =
          zeroVector testR1CS.n_constraints ∧
        (R1CSRelaxed.fromR1CS testR1CS).a = testR1CS.a ∧
        (R1CSRelaxed.fromR1CS testR1CS).b = testR1CS.b ∧
        (R1CSRelaxed.fromR1CS testR1CS).c = testR1CS.c ∧
        (R1CSRelaxed.fromR1CS testR1CS).is_satisfied [1] = true) :=
  ⟨rfl, rfl, rfl, by decide,
    lift_r1cs_correct testR1CS [1] rfl rfl rfl (by decide)⟩

end Witnesses

end ArkAlgorithms
